import Mathlib

/-!
Verification development for `src/opt/weighted_maxsat.cpp` (class
`smt::theory_weighted_maxsat` and the entry point `opt::weighted_maxsat`).

The C++ class is embedded shallowly:

* theory variables (`theory_var`) are `Nat` indices into the registration
  sequence; `m_weights` is a `List Rat` indexed by them (`rational` is ℚ);
* the per-search mutable state (`m_costs`, `m_cost_save`, `m_cost`,
  `m_min_cost`, plus the undo objects pushed on the context trail by
  `assign_eh`) is the structure `WState`.  Clauses submitted through
  `ctx.mk_th_axiom` are logged in `m_axioms`; a clause is represented by the
  list of theory variables whose relaxation literal it negates (the map
  `m_var2bool` is a bijection set up by `init_search_eh`, so this loses no
  information).
* `std::sort(costs.begin(), costs.end(), compare_cost)` guarantees only that
  the result is a permutation of the input that is weakly descending in
  weight (the comparator is `m_weights[v] > m_weights[w]`; `std::sort` is not
  stable).  `block` is therefore parametrised by the chosen order, and the
  host-level step relation `Step` admits any order satisfying `ValidOrder`.
-/

/-- Undo records pushed by `assign_eh` onto the context trail:
`value_trail<context, rational>(m_cost)` saves the current value of `m_cost`,
and `push_back_vector<context, svector<theory_var>>(m_costs)` pops the last
element of `m_costs` when undone. -/
inductive TrailOp where
  | saveCost (c : Rat)
  | popCost
deriving DecidableEq

/-- Per-search state of `theory_weighted_maxsat`, together with the trail
entries it pushed and the log of clauses it submitted via `mk_th_axiom`. -/
structure WState where
  m_weights : List Rat
  m_costs : List Nat
  m_cost_save : List Nat
  m_cost : Rat
  m_min_cost : Rat
  m_axioms : List (List Nat)
  trail : List TrailOp
deriving DecidableEq

/-- Weight lookup `m_weights[v]` (out-of-range reads, which never occur in
reachable states, default to 0). -/
def wgtL (w : List Rat) (v : Nat) : Rat := w.getD v 0

/-- Sum of the weights of a list of theory variables. -/
def costW (w : List Rat) (l : List Nat) : Rat := (l.map (wgtL w)).sum

/-- The accumulation loop of `block()`:
`for (i = 0; i < costs.size() && weight < m_min_cost; ++i) { weight += m_weights[costs[i]]; lits.push_back(~literal(m_var2bool[costs[i]])); }`
— it walks the sorted snapshot, including an element exactly when the weight
accumulated so far is still `< m_min_cost`. -/
def cutFrom (w : List Rat) (bound : Rat) (acc : Rat) : List Nat → List Nat
  | [] => []
  | v :: rest => if acc < bound then v :: cutFrom w bound (acc + wgtL w v) rest else []

/-- The body of `theory_weighted_maxsat::block()`, parametrised by the order
`o` produced by `std::sort` on the snapshot of `m_costs`.  It submits the
clause of negated relaxation literals of the greedy cut (logged in
`m_axioms`), then, if `m_cost < m_min_cost`, sets `m_min_cost` to the
accumulated weight and `m_cost_save` to a snapshot of `m_costs`; it returns
`!lits.empty()`. -/
def blockStep (s : WState) (o : List Nat) : WState × Bool :=
  let lits := cutFrom s.m_weights s.m_min_cost 0 o
  let s1 : WState := { s with m_axioms := s.m_axioms ++ [lits] }
  let s2 : WState :=
    if s1.m_cost < s1.m_min_cost then
      { s1 with m_min_cost := costW s1.m_weights lits, m_cost_save := s1.m_costs }
    else s1
  (s2, !lits.isEmpty)

/-- The mutation block of `assign_eh` on a true assignment: push the two
undo records, add the weight to `m_cost`, append the variable to
`m_costs`. -/
def ledgerPush (s : WState) (v : Nat) : WState :=
  { s with
    trail := TrailOp.popCost :: TrailOp.saveCost s.m_cost :: s.trail,
    m_cost := s.m_cost + wgtL s.m_weights v,
    m_costs := s.m_costs ++ [v] }

/-- The body of `theory_weighted_maxsat::assign_eh(v, is_true)`.  On a
true assignment it pushes the two undo records, adds the weight to `m_cost`,
appends the variable to `m_costs`, and calls `block()` when
`m_cost > m_min_cost`; on a false assignment it does nothing.  The boolean
variable is identified with its theory variable through the `m_bool2var`
bijection. -/
def assignEh (s : WState) (v : Nat) (isTrue : Bool) (o : List Nat) : WState :=
  if isTrue then
    let s1 := ledgerPush s v
    if s1.m_min_cost < s1.m_cost then (blockStep s1 o).1 else s1
  else s

/-- Result of `final_check_eh`. -/
inductive FinalCheckStatus where
  | FC_DONE
  | FC_CONTINUE
deriving DecidableEq

/-- The body of `theory_weighted_maxsat::final_check_eh()`: call `block()`,
return `FC_CONTINUE` if it emitted a non-empty clause and `FC_DONE`
otherwise. -/
def finalCheckEh (s : WState) (o : List Nat) : WState × FinalCheckStatus :=
  let r := blockStep s o
  (r.1, if r.2 then FinalCheckStatus.FC_CONTINUE else FinalCheckStatus.FC_DONE)

/-- Undo one trail record, as `smt::context` does when unwinding its trail
stack. -/
def undoOne (s : WState) : WState :=
  match s.trail with
  | [] => s
  | TrailOp.saveCost c :: t => { s with m_cost := c, trail := t }
  | TrailOp.popCost :: t => { s with m_costs := s.m_costs.dropLast, trail := t }

/-- Apply `undoOne` a given number of times. -/
def unwindAux : Nat → WState → WState
  | 0, s => s
  | k + 1, s => unwindAux k (undoOne s)

/-- Unwind the trail down to length `n` (the host pops trail records until the
trail has the size recorded at the target scope mark). -/
def unwindTo (n : Nat) (s : WState) : WState := unwindAux (s.trail.length - n) s

/-- The state of a fresh `theory_weighted_maxsat` object: all containers
empty, `m_cost` and `m_min_cost` zero. -/
def emptyWState : WState :=
  { m_weights := [], m_costs := [], m_cost_save := [], m_cost := 0,
    m_min_cost := 0, m_axioms := [], trail := [] }

/-- Effect of `assert_weighted(fml, w)` on the embedded state: push the
weight and add it to `m_min_cost` (the formula, the fresh relaxation
variable, and the hard clause `var ∨ fml` live in the host context). -/
def assertWeighted (s : WState) (w : Rat) : WState :=
  { s with m_weights := s.m_weights ++ [w], m_min_cost := s.m_min_cost + w }

/-- The state at the start of a search, after registering the given weights:
`m_min_cost` is the sum of all weights and the ledger is empty. -/
def initState (ws : List Rat) : WState := ws.foldl assertWeighted emptyWState

/-- A permitted outcome of `std::sort(costs, compare_cost)`: a permutation of
the snapshot that is weakly descending in weight (ties are broken in an
unspecified way; `std::sort` is not stable). -/
def ValidOrder (w : List Rat) (base o : List Nat) : Prop :=
  o.Perm base ∧ o.Pairwise (fun u v => wgtL w v ≤ wgtL w u)

/-- One host-search event delivered to the theory: an assignment
notification, a final check, or a backtrack that unwinds the trail to an
earlier mark.  Scope marks are recorded between theory callbacks, so every
mark lies at an even trail length (each `assign_eh` pushes exactly two
records); a boolean variable is assigned at most once while it is on the
trail, so `assign_eh(v, true)` is only delivered when `v` is not currently
asserted. -/
inductive Step (s : WState) : WState → Prop where
  | assignFalse (v : Nat) (o : List Nat) : Step s (assignEh s v false o)
  | assignTrue (v : Nat) (o : List Nat)
      (hv : v < s.m_weights.length) (hnd : v ∉ s.m_costs)
      (ho : ValidOrder s.m_weights (s.m_costs ++ [v]) o) :
      Step s (assignEh s v true o)
  | finalCheck (o : List Nat) (ho : ValidOrder s.m_weights s.m_costs o) :
      Step s (finalCheckEh s o).1
  | backtrack (n : Nat) (h2 : 2 ∣ n) (hn : n ≤ s.trail.length) :
      Step s (unwindTo n s)

/-- States reachable in one search session over a fixed registration
sequence. -/
inductive Reachable (w : List Rat) : WState → Prop where
  | init : Reachable w (initState w)
  | step {s t : WState} : Reachable w s → Step s t → Reachable w t

/-- Reflexive-transitive closure of `Step`: a (possibly empty) sequence of
host-search events. -/
inductive Steps : WState → WState → Prop where
  | refl (s : WState) : Steps s s
  | tail {s t u : WState} : Steps s t → Step t u → Steps s u

/-- Coherence of the trail with the ledger: the trail is a stack of the
record pairs pushed by `assign_eh`, and replaying it explains the current
`m_cost` and `m_costs` exactly. -/
inductive TrailRep (w : List Rat) : List TrailOp → Rat → List Nat → Prop where
  | nil : TrailRep w [] 0 []
  | push {t : List TrailOp} {c : Rat} {l : List Nat} (v : Nat) :
      TrailRep w t c l →
      TrailRep w (TrailOp.popCost :: TrailOp.saveCost c :: t) (c + wgtL w v) (l ++ [v])

/-- The index walk of `theory_weighted_maxsat::get_assignment`: `i` runs over
the registered ids with `fuel` ids remaining, and the first argument is the
not-yet-consumed suffix of the sorted `m_cost_save`; an id is emitted exactly
when it does not match the head of that suffix. -/
def gaLoop : List Nat → Nat → Nat → List Nat
  | _, _, 0 => []
  | [], i, fuel + 1 => i :: gaLoop [] (i + 1) fuel
  | j :: rest, i, fuel + 1 =>
      if j = i then gaLoop rest (i + 1) fuel
      else i :: gaLoop (j :: rest) (i + 1) fuel

/-- The body of `theory_weighted_maxsat::get_assignment(result)`: sort
`m_cost_save` ascending (`std::sort` with `operator<` on integer ids, whose
result is the unique nondecreasing arrangement), then walk ids `0..n-1`
pushing `m_fmls[i]` for every id not matched in the sorted save set.  `fmls`
is the registered formula sequence `m_fmls` (formulas represented by opaque
ids). -/
def getAssignment (fmls : List Nat) (save : List Nat) : List Nat :=
  (gaLoop (save.insertionSort (· ≤ ·)) 0 fmls.length).map (fun i => fmls.getD i 0)

/-- Whole-object state of `theory_weighted_maxsat`, including the fields
that survive a search: the registration sequences `m_vars`, `m_fmls`,
`m_weights` (parallel arrays pushed together by `assert_weighted`) and the
binding maps `m_bool2var` / `m_var2bool` filled by `init_search_eh`
(association lists of key/value pairs). -/
structure CState where
  m_vars : List Nat
  m_fmls : List Nat
  m_weights : List Rat
  m_costs : List Nat
  m_cost_save : List Nat
  m_cost : Rat
  m_min_cost : Rat
  m_bool2var : List (Nat × Nat)
  m_var2bool : List (Nat × Nat)
deriving DecidableEq

/-- The body of `theory_weighted_maxsat::reset_eh()`: it resets `m_vars`,
`m_weights`, `m_costs`, `m_cost`, `m_min_cost` and `m_cost_save` — and
nothing else (`m_fmls`, `m_bool2var` and `m_var2bool` are left untouched;
`theory::reset_eh()` only clears base-class data). -/
def resetEh (c : CState) : CState :=
  { c with m_vars := [], m_weights := [], m_costs := [], m_cost := 0,
           m_min_cost := 0, m_cost_save := [] }

/-- Insert-or-overwrite on an association list, the behaviour of
`u_map::insert`. -/
def upsert : List (Nat × Nat) → Nat → Nat → List (Nat × Nat)
  | [], k, v => [(k, v)]
  | (k', v') :: rest, k, v =>
      if k' = k then (k, v) :: rest else (k', v') :: upsert rest k v

/-- Key lookup in an association list. -/
def findA : List (Nat × Nat) → Nat → Option Nat
  | [], _ => none
  | (k, v) :: rest, a => if k = a then some v else findA rest a

/-- The slice of `smt::context` state touched by `init_search_eh`, together
with the theory-side binding state.  `eInternalized` is the set of apps with
an enode, `boolVarOf` maps an internalized app to its boolean variable,
`nextBoolVar` allocates fresh boolean variables, `varTheory` records
`set_var_theory`, `numTheoryVars` is the `theory::mk_var` counter (the length
of `m_var2enode`), and `attached` records the `attach_th_var` calls. -/
structure BindState where
  eInternalized : List Nat
  boolVarOf : List (Nat × Nat)
  nextBoolVar : Nat
  varTheory : List (Nat × Nat)
  numTheoryVars : Nat
  attached : List (Nat × Nat)
  m_bool2var : List (Nat × Nat)
  m_var2bool : List (Nat × Nat)
deriving DecidableEq

/-- One iteration of the `init_search_eh` loop for the registered app `a`:
reuse or create the enode, reuse or create the boolean variable, set its
theory, make a fresh theory variable, attach it, and (over)write the two
binding maps.  There is no check whether `a` was already processed. -/
def stepBind (thid : Nat) (st : BindState) (a : Nat) : BindState :=
  let st1 : BindState :=
    if a ∈ st.eInternalized then st
    else { st with eInternalized := st.eInternalized ++ [a] }
  let bvst : Nat × BindState :=
    match findA st1.boolVarOf a with
    | some bv => (bv, st1)
    | none => (st1.nextBoolVar,
        { st1 with boolVarOf := st1.boolVarOf ++ [(a, st1.nextBoolVar)],
                   nextBoolVar := st1.nextBoolVar + 1 })
  let bv := bvst.1
  let st2 := bvst.2
  let st3 : BindState := { st2 with varTheory := upsert st2.varTheory bv thid }
  let v := st3.numTheoryVars
  { st3 with numTheoryVars := v + 1,
             attached := st3.attached ++ [(a, v)],
             m_bool2var := upsert st3.m_bool2var bv v,
             m_var2bool := upsert st3.m_var2bool v bv }

/-- The body of `theory_weighted_maxsat::init_search_eh()`: run the binding
loop over every registered relaxation app in `m_vars`, unconditionally. -/
def initSearchEh (thid : Nat) (vars : List Nat) (st : BindState) : BindState :=
  vars.foldl (stepBind thid) st

/-- An entirely fresh binding state. -/
def emptyBindState : BindState :=
  { eInternalized := [], boolVarOf := [], nextBoolVar := 0, varTheory := [],
    numTheoryVars := 0, attached := [], m_bool2var := [], m_var2bool := [] }

/-- The three-valued result type `lbool` of the solver. -/
inductive lbool where
  | l_false
  | l_undef
  | l_true
deriving DecidableEq

/-- The tail of `opt::weighted_maxsat(s, soft_constraints, weights)` after
`check_sat_core` returns: `soft_constraints` is overwritten with
`get_assignment`, and an `l_false` result is coerced to `l_true` when that
extracted subset is non-empty.  `result` is the value returned by the
(external) search and `st` the theory state it left behind. -/
def weightedMaxsatPost (fmls : List Nat) (result : lbool) (st : WState) :
    List Nat × lbool :=
  let soft := getAssignment fmls st.m_cost_save
  (soft, if soft ≠ [] ∧ result = lbool.l_false then lbool.l_true else result)

/-- Weight lookup in the empty table. -/
theorem wgtL_nil (v : Nat) : wgtL [] v = 0 := rfl

/-- Weight lookup at the head. -/
theorem wgtL_cons_zero (x : Rat) (w : List Rat) : wgtL (x :: w) 0 = x := rfl

/-- Weight lookup in the tail. -/
theorem wgtL_cons_succ (x : Rat) (w : List Rat) (v : Nat) :
    wgtL (x :: w) (v + 1) = wgtL w v := rfl

/-- Every weight the lookup can produce is nonnegative when the table is. -/
theorem wgtL_nonneg {w : List Rat} (hw : ∀ x ∈ w, 0 ≤ x) (v : Nat) : 0 ≤ wgtL w v := by
  induction w generalizing v with
  | nil => simp [wgtL_nil]
  | cons x t ih =>
    cases v with
    | zero => exact hw x (by simp)
    | succ v =>
      rw [wgtL_cons_succ]
      exact ih (fun y hy => hw y (by simp [hy])) v

theorem costW_nil (w : List Rat) : costW w [] = 0 := rfl

theorem costW_cons (w : List Rat) (v : Nat) (l : List Nat) :
    costW w (v :: l) = wgtL w v + costW w l := by
  simp [costW]

theorem costW_append (w : List Rat) (l₁ l₂ : List Nat) :
    costW w (l₁ ++ l₂) = costW w l₁ + costW w l₂ := by
  simp [costW]

theorem costW_perm (w : List Rat) {l₁ l₂ : List Nat} (h : l₁.Perm l₂) :
    costW w l₁ = costW w l₂ :=
  List.Perm.sum_eq (List.Perm.map _ h)

theorem costW_nonneg {w : List Rat} (hw : ∀ x ∈ w, 0 ≤ x) (l : List Nat) :
    0 ≤ costW w l := by
  induction l with
  | nil => simp [costW_nil]
  | cons v t ih =>
    rw [costW_cons]
    exact add_nonneg (wgtL_nonneg hw v) ih

theorem costW_take_le {w : List Rat} (hw : ∀ x ∈ w, 0 ≤ x) (l : List Nat) (k : Nat) :
    costW w (l.take k) ≤ costW w l := by
  conv_rhs => rw [← List.take_append_drop k l]
  rw [costW_append]
  have := costW_nonneg hw (l.drop k)
  linarith

/-- The greedy cut is an initial segment of the order it is given. -/
theorem cutFrom_take (w : List Rat) (bound : Rat) (acc : Rat) (o : List Nat) :
    cutFrom w bound acc o = o.take (cutFrom w bound acc o).length := by
  induction o generalizing acc with
  | nil => simp [cutFrom]
  | cons v rest ih =>
    by_cases h : acc < bound
    · simp only [cutFrom, if_pos h, List.length_cons, List.take_succ_cons]
      exact congrArg _ (ih _)
    · simp [cutFrom, if_neg h]

/-- On exit, the accumulation loop has either reached the bound or consumed
the whole sequence. -/
theorem cutFrom_exit (w : List Rat) (bound : Rat) (acc : Rat) (o : List Nat) :
    bound ≤ acc + costW w (cutFrom w bound acc o) ∨ cutFrom w bound acc o = o := by
  induction o generalizing acc with
  | nil => right; simp [cutFrom]
  | cons v rest ih =>
    by_cases h : acc < bound
    · rcases ih (acc + wgtL w v) with hb | he
      · left
        rw [cutFrom, if_pos h, costW_cons]
        linarith
      · right
        rw [cutFrom, if_pos h, he]
    · left
      rw [cutFrom, if_neg h, costW_nil]
      linarith

/-- Every proper initial segment of the greedy cut is still below the bound:
the loop only includes an element when the weight accumulated so far is
`< m_min_cost`. -/
theorem cutFrom_take_lt (w : List Rat) (bound : Rat) (acc : Rat) (o : List Nat) :
    ∀ k < (cutFrom w bound acc o).length,
      acc + costW w ((cutFrom w bound acc o).take k) < bound := by
  induction o generalizing acc with
  | nil => intro k hk; simp [cutFrom] at hk
  | cons v rest ih =>
    intro k hk
    by_cases h : acc < bound
    · rw [cutFrom, if_pos h] at hk ⊢
      cases k with
      | zero => simpa [costW_nil] using h
      | succ k =>
        simp only [List.length_cons, Nat.succ_lt_succ_iff] at hk
        have := ih (acc + wgtL w v) k hk
        simpa [costW_cons, add_assoc] using this
    · rw [cutFrom, if_neg h] at hk
      simp at hk

/-- With nonnegative weights, when the total weight of the sequence stays
below the bound the loop consumes the whole sequence. -/
theorem cutFrom_all {w : List Rat} (hw : ∀ x ∈ w, 0 ≤ x) (bound : Rat)
    (acc : Rat) (o : List Nat) (h : acc + costW w o < bound) :
    cutFrom w bound acc o = o := by
  induction o generalizing acc with
  | nil => simp [cutFrom]
  | cons v rest ih =>
    have hnn : 0 ≤ costW w rest := costW_nonneg hw rest
    have hv : 0 ≤ wgtL w v := wgtL_nonneg hw v
    rw [costW_cons] at h
    have hacc : acc < bound := by linarith
    rw [cutFrom, if_pos hacc, ih (acc + wgtL w v) (by linarith)]

/-- The emitted literal set is empty exactly when there was nothing asserted
or the bound was already nonpositive. -/
theorem cutFrom_eq_nil_iff (w : List Rat) (bound : Rat) (o : List Nat) :
    cutFrom w bound 0 o = [] ↔ o = [] ∨ bound ≤ 0 := by
  cases o with
  | nil => simp [cutFrom]
  | cons v rest =>
    by_cases h : (0 : Rat) < bound
    · simp [cutFrom, if_pos h]
      linarith
    · simp [cutFrom, if_neg h]
      linarith

/-- `block()` never touches the ledger fields: `m_cost`, `m_costs`,
`m_weights` and the trail are unchanged, and exactly one clause — the greedy
cut — is appended to the submitted-axiom log. -/
theorem blockStep_fields (s : WState) (o : List Nat) :
    (blockStep s o).1.m_cost = s.m_cost ∧
    (blockStep s o).1.m_costs = s.m_costs ∧
    (blockStep s o).1.m_weights = s.m_weights ∧
    (blockStep s o).1.trail = s.trail ∧
    (blockStep s o).1.m_axioms = s.m_axioms ++ [cutFrom s.m_weights s.m_min_cost 0 o] := by
  unfold blockStep
  by_cases h : s.m_cost < s.m_min_cost <;> simp [h]

/-- The update branch of `block()`: `m_min_cost` and `m_cost_save` are
rewritten exactly when `m_cost < m_min_cost`. -/
theorem blockStep_update (s : WState) (o : List Nat) :
    ((s.m_cost < s.m_min_cost →
        (blockStep s o).1.m_min_cost = costW s.m_weights (cutFrom s.m_weights s.m_min_cost 0 o) ∧
        (blockStep s o).1.m_cost_save = s.m_costs) ∧
     (¬ s.m_cost < s.m_min_cost →
        (blockStep s o).1.m_min_cost = s.m_min_cost ∧
        (blockStep s o).1.m_cost_save = s.m_cost_save)) := by
  unfold blockStep
  by_cases h : s.m_cost < s.m_min_cost <;> simp [h]

/-- Return value of `block()`: `!lits.empty()`. -/
theorem blockStep_ret (s : WState) (o : List Nat) :
    (blockStep s o).2 = true ↔ cutFrom s.m_weights s.m_min_cost 0 o ≠ [] := by
  unfold blockStep
  simp

/-- Replaying the trail explains `m_cost` exactly: a coherent trail forces
`m_cost` to be the sum of the weights of `m_costs`. -/
theorem trailRep_cost {w : List Rat} {t : List TrailOp} {c : Rat} {l : List Nat}
    (h : TrailRep w t c l) : c = costW w l := by
  induction h with
  | nil => simp [costW_nil]
  | push v _ ih => rw [costW_append, costW_cons, costW_nil, ih]; ring

/-- A coherent trail has even length: `assign_eh` pushes records in pairs. -/
theorem trailRep_even {w : List Rat} {t : List TrailOp} {c : Rat} {l : List Nat}
    (h : TrailRep w t c l) : 2 ∣ t.length := by
  induction h with
  | nil => simp
  | push v _ ih =>
    simp only [List.length_cons]
    omega

/-- Undoing a trail record never touches `m_min_cost`, `m_cost_save`,
`m_axioms` or `m_weights`. -/
theorem undoOne_fields (s : WState) :
    (undoOne s).m_min_cost = s.m_min_cost ∧
    (undoOne s).m_cost_save = s.m_cost_save ∧
    (undoOne s).m_axioms = s.m_axioms ∧
    (undoOne s).m_weights = s.m_weights := by
  unfold undoOne
  cases h : s.trail with
  | nil => simp
  | cons op t => cases op <;> simp

/-- Unwinding the trail never touches `m_min_cost`, `m_cost_save`,
`m_axioms` or `m_weights`. -/
theorem unwindAux_fields (k : Nat) (s : WState) :
    (unwindAux k s).m_min_cost = s.m_min_cost ∧
    (unwindAux k s).m_cost_save = s.m_cost_save ∧
    (unwindAux k s).m_axioms = s.m_axioms ∧
    (unwindAux k s).m_weights = s.m_weights := by
  induction k generalizing s with
  | zero => simp [unwindAux]
  | succ k ih =>
    have h1 := undoOne_fields s
    have h2 := ih (undoOne s)
    simp only [unwindAux]
    exact ⟨h2.1.trans h1.1, h2.2.1.trans h1.2.1, h2.2.2.1.trans h1.2.2.1,
           h2.2.2.2.trans h1.2.2.2⟩

/-- Backtracking to a trail mark restores a coherent ledger: the restored
trail has exactly the requested length, it is again coherent with the
restored `m_cost`/`m_costs`, and the restored `m_costs` is a sublist of the
one before backtracking. -/
theorem trailRep_unwind {w : List Rat} {t : List TrailOp} {c : Rat} {l : List Nat}
    (h : TrailRep w t c l) :
    ∀ n, 2 ∣ n → n ≤ t.length →
    ∀ s : WState, s.trail = t → s.m_cost = c → s.m_costs = l →
      TrailRep w (unwindTo n s).trail (unwindTo n s).m_cost (unwindTo n s).m_costs ∧
      (unwindTo n s).trail.length = n ∧
      (unwindTo n s).m_costs.Sublist l := by
  induction h with
  | nil =>
    intro n _ hn s ht hc hl
    have hn0 : n = 0 := by simpa using hn
    subst hn0
    have hz : s.trail.length - 0 = 0 := by rw [ht]; rfl
    simp only [unwindTo, hz, unwindAux]
    rw [ht, hc, hl]
    exact ⟨TrailRep.nil, rfl, List.Sublist.refl _⟩
  | @push t c l v hrep ih =>
    intro n h2 hn s ht hc hl
    by_cases heq : n = t.length + 2
    · have hz : s.trail.length - n = 0 := by
        rw [ht]
        simp only [List.length_cons]
        omega
      simp only [unwindTo, hz, unwindAux]
      rw [ht, hc, hl]
      refine ⟨TrailRep.push v hrep, ?_, List.Sublist.refl _⟩
      simp only [List.length_cons]
      omega
    · have hle : n ≤ t.length := by
        have hev := trailRep_even hrep
        simp only [ht, List.length_cons] at hn
        omega
      set s2 : WState := undoOne (undoOne s) with hs2
      have hu1 : undoOne s = { s with m_costs := s.m_costs.dropLast,
                                      trail := TrailOp.saveCost c :: t } := by
        unfold undoOne
        rw [ht]
      have hs2trail : s2.trail = t := by rw [hs2, hu1]; unfold undoOne; simp
      have hs2cost : s2.m_cost = c := by rw [hs2, hu1]; unfold undoOne; simp
      have hs2costs : s2.m_costs = l := by
        rw [hs2, hu1]
        unfold undoOne
        simp [hl]
      have hfuel : s.trail.length - n = (t.length - n) + 2 := by
        rw [ht]
        simp only [List.length_cons]
        omega
      have hstep : unwindTo n s = unwindTo n s2 := by
        rw [hs2]
        simp only [unwindTo, hfuel, unwindAux]
        have htr : (undoOne (undoOne s)).trail = t := by
          rw [← hs2]
          exact hs2trail
        rw [htr]
      rcases ih n h2 hle s2 hs2trail hs2cost hs2costs with ⟨ha, hb, hcs⟩
      rw [hstep]
      refine ⟨ha, hb, hcs.trans ?_⟩
      exact (List.sublist_append_left l [v])

theorem assignEh_false (s : WState) (v : Nat) (o : List Nat) :
    assignEh s v false o = s := rfl

theorem assignEh_true (s : WState) (v : Nat) (o : List Nat) :
    assignEh s v true o =
      if (ledgerPush s v).m_min_cost < (ledgerPush s v).m_cost then
        (blockStep (ledgerPush s v) o).1
      else ledgerPush s v := rfl

theorem finalCheckEh_fst (s : WState) (o : List Nat) :
    (finalCheckEh s o).1 = (blockStep s o).1 := rfl

theorem ledgerPush_fields (s : WState) (v : Nat) :
    (ledgerPush s v).m_cost = s.m_cost + wgtL s.m_weights v ∧
    (ledgerPush s v).m_costs = s.m_costs ++ [v] ∧
    (ledgerPush s v).m_weights = s.m_weights ∧
    (ledgerPush s v).m_min_cost = s.m_min_cost ∧
    (ledgerPush s v).m_cost_save = s.m_cost_save ∧
    (ledgerPush s v).m_axioms = s.m_axioms ∧
    (ledgerPush s v).trail = TrailOp.popCost :: TrailOp.saveCost s.m_cost :: s.trail := by
  simp [ledgerPush]

/-- Registration accumulates the weight list and `m_min_cost` as the running
total of registered weights. -/
theorem foldl_assertWeighted (ws : List Rat) (s : WState) :
    ws.foldl assertWeighted s =
      { s with m_weights := s.m_weights ++ ws, m_min_cost := s.m_min_cost + ws.sum } := by
  induction ws generalizing s with
  | nil => simp
  | cons x t ih =>
    rw [List.foldl_cons, ih]
    simp [assertWeighted, add_assoc]

/-- The state at search start, explicitly: `m_min_cost` is the trivial
relax-everything bound, the ledger is empty. -/
theorem initState_eq (ws : List Rat) :
    initState ws =
      { m_weights := ws, m_costs := [], m_cost_save := [], m_cost := 0,
        m_min_cost := ws.sum, m_axioms := [], trail := [] } := by
  simp [initState, foldl_assertWeighted, emptyWState]

/-- Structural invariant of reachable per-search states: the weight table is
the registration sequence, the trail is coherent with the ledger, and the
asserted and saved id sets are duplicate-free lists of registered ids. -/
structure Inv0 (w : List Rat) (s : WState) : Prop where
  weq : s.m_weights = w
  rep : TrailRep w s.trail s.m_cost s.m_costs
  nodup : s.m_costs.Nodup
  bounds : ∀ v ∈ s.m_costs, v < w.length
  saveNodup : s.m_cost_save.Nodup
  saveBounds : ∀ v ∈ s.m_cost_save, v < w.length

/-- Arithmetic invariant of reachable per-search states (for nonnegative
weights): the bound is nonnegative, and `m_cost_save` accounts for it —
either no improving assignment has been recorded yet and the bound is still
the relax-everything total, or the saved set's weight equals the bound. -/
structure Inv1 (w : List Rat) (s : WState) : Prop where
  minNonneg : 0 ≤ s.m_min_cost
  saveSum : (s.m_cost_save = [] ∧ s.m_min_cost = w.sum) ∨
            costW w s.m_cost_save = s.m_min_cost

theorem inv0_cost {w : List Rat} {s : WState} (h : Inv0 w s) :
    s.m_cost = costW w s.m_costs :=
  trailRep_cost h.rep

/-- After `block()`, the bound is the smaller of the incoming bound and the
running cost. -/
theorem blockStep_min_eq {w : List Rat} {s : WState} {o : List Nat}
    (hw : ∀ x ∈ w, 0 ≤ x) (hweq : s.m_weights = w)
    (hc : s.m_cost = costW w s.m_costs) (hperm : o.Perm s.m_costs) :
    (blockStep s o).1.m_min_cost = min s.m_min_cost s.m_cost := by
  have hcosts : costW w o = s.m_cost := by rw [costW_perm w hperm, hc]
  by_cases h : s.m_cost < s.m_min_cost
  · have hcut : cutFrom s.m_weights s.m_min_cost 0 o = o := by
      rw [hweq]
      exact cutFrom_all hw _ _ _ (by rw [hcosts]; linarith)
    have := ((blockStep_update s o).1 h).1
    rw [this, hcut, hweq, hcosts]
    exact (min_eq_right (le_of_lt h)).symm
  · have := ((blockStep_update s o).2 h).1
    rw [this]
    push_neg at h
    exact (min_eq_left h).symm

/-- The weight of the emitted cut is at least the bound that `block()`
leaves behind. -/
theorem blockStep_cut_ge {w : List Rat} {s : WState} {o : List Nat}
    (hw : ∀ x ∈ w, 0 ≤ x) (hweq : s.m_weights = w)
    (hc : s.m_cost = costW w s.m_costs) (hperm : o.Perm s.m_costs) :
    (blockStep s o).1.m_min_cost ≤ costW w (cutFrom w s.m_min_cost 0 o) := by
  have hcosts : costW w o = s.m_cost := by rw [costW_perm w hperm, hc]
  rw [blockStep_min_eq hw hweq hc hperm]
  by_cases h : s.m_cost < s.m_min_cost
  · have hcut : cutFrom w s.m_min_cost 0 o = o :=
      cutFrom_all hw _ _ _ (by rw [hcosts]; linarith)
    rw [hcut, hcosts]
    exact min_le_right _ _
  · rcases cutFrom_exit w s.m_min_cost 0 o with hb | he
    · calc min s.m_min_cost s.m_cost ≤ s.m_min_cost := min_le_left _ _
        _ ≤ _ := by linarith
    · rw [he, hcosts]
      exact min_le_right _ _

theorem blockStep_inv0 {w : List Rat} {s : WState} (h : Inv0 w s) (o : List Nat) :
    Inv0 w (blockStep s o).1 := by
  obtain ⟨hcost, hcosts, hwts, htrail, -⟩ := blockStep_fields s o
  refine ⟨hwts.trans h.weq, ?_, ?_, ?_, ?_, ?_⟩
  · rw [hcost, hcosts, htrail]
    exact h.rep
  · rw [hcosts]
    exact h.nodup
  · rw [hcosts]
    exact h.bounds
  · by_cases hlt : s.m_cost < s.m_min_cost
    · rw [((blockStep_update s o).1 hlt).2]
      exact h.nodup
    · rw [((blockStep_update s o).2 hlt).2]
      exact h.saveNodup
  · by_cases hlt : s.m_cost < s.m_min_cost
    · rw [((blockStep_update s o).1 hlt).2]
      exact h.bounds
    · rw [((blockStep_update s o).2 hlt).2]
      exact h.saveBounds

theorem blockStep_inv1 {w : List Rat} {s : WState} {o : List Nat}
    (hw : ∀ x ∈ w, 0 ≤ x) (h0 : Inv0 w s) (h1 : Inv1 w s)
    (hperm : o.Perm s.m_costs) : Inv1 w (blockStep s o).1 := by
  have hc := inv0_cost h0
  have hmin := blockStep_min_eq hw h0.weq hc hperm
  constructor
  · rw [hmin]
    have : 0 ≤ s.m_cost := by rw [hc]; exact costW_nonneg hw _
    exact le_min h1.minNonneg this
  · by_cases hlt : s.m_cost < s.m_min_cost
    · right
      rw [((blockStep_update s o).1 hlt).2, hmin, min_eq_right (le_of_lt hlt), hc]
    · rw [((blockStep_update s o).2 hlt).2, hmin]
      push_neg at hlt
      rw [min_eq_left hlt]
      exact h1.saveSum

theorem ledgerPush_inv0 {w : List Rat} {s : WState} {v : Nat}
    (h : Inv0 w s) (hv : v < w.length) (hnd : v ∉ s.m_costs) :
    Inv0 w (ledgerPush s v) := by
  obtain ⟨hc, hcs, hwts, hmin, hsave, hax, htr⟩ := ledgerPush_fields s v
  refine ⟨hwts.trans h.weq, ?_, ?_, ?_, ?_, ?_⟩
  · rw [hc, hcs, htr, h.weq]
    have := trailRep_cost h.rep
    exact TrailRep.push v h.rep
  · rw [hcs]
    simp [List.nodup_append, h.nodup, hnd]
  · rw [hcs]
    intro u hu
    rcases List.mem_append.1 hu with hu | hu
    · exact h.bounds u hu
    · simp at hu
      omega
  · rw [hsave]
    exact h.saveNodup
  · rw [hsave]
    exact h.saveBounds

theorem step_inv0 {w : List Rat} {s t : WState} (h : Inv0 w s) (hs : Step s t) :
    Inv0 w t := by
  cases hs with
  | assignFalse v o =>
    rw [assignEh_false]
    exact h
  | assignTrue v o hv hnd ho =>
    rw [assignEh_true]
    have h1 : Inv0 w (ledgerPush s v) := ledgerPush_inv0 h (h.weq ▸ hv) hnd
    by_cases hb : (ledgerPush s v).m_min_cost < (ledgerPush s v).m_cost
    · rw [if_pos hb]
      exact blockStep_inv0 h1 o
    · rw [if_neg hb]
      exact h1
  | finalCheck o ho =>
    rw [finalCheckEh_fst]
    exact blockStep_inv0 h o
  | backtrack n h2 hn =>
    rcases trailRep_unwind h.rep n h2 hn s rfl rfl rfl with ⟨hrep, -, hsub⟩
    obtain ⟨hmin, hsave, hax, hwts⟩ := unwindAux_fields (s.trail.length - n) s
    refine ⟨?_, hrep, List.Nodup.sublist hsub h.nodup,
            fun u hu => h.bounds u (hsub.mem hu), ?_, ?_⟩
    · exact (show (unwindTo n s).m_weights = s.m_weights from hwts).trans h.weq
    · exact (show (unwindTo n s).m_cost_save = s.m_cost_save from hsave) ▸ h.saveNodup
    · intro u hu
      rw [show (unwindTo n s).m_cost_save = s.m_cost_save from hsave] at hu
      exact h.saveBounds u hu

theorem step_inv1 {w : List Rat} {s t : WState} (hw : ∀ x ∈ w, 0 ≤ x)
    (h0 : Inv0 w s) (h1 : Inv1 w s) (hs : Step s t) : Inv1 w t := by
  cases hs with
  | assignFalse v o =>
    rw [assignEh_false]
    exact h1
  | assignTrue v o hv hnd ho =>
    rw [assignEh_true]
    obtain ⟨hc, hcs, hwts, hmin, hsave, hax, htr⟩ := ledgerPush_fields s v
    have h1' : Inv1 w (ledgerPush s v) := by
      constructor
      · rw [hmin]; exact h1.minNonneg
      · rw [hsave, hmin]; exact h1.saveSum
    by_cases hb : (ledgerPush s v).m_min_cost < (ledgerPush s v).m_cost
    · rw [if_pos hb]
      have h0' : Inv0 w (ledgerPush s v) := ledgerPush_inv0 h0 (h0.weq ▸ hv) hnd
      refine blockStep_inv1 hw h0' h1' ?_
      rw [hcs]
      exact ho.1
    · rw [if_neg hb]
      exact h1'
  | finalCheck o ho =>
    rw [finalCheckEh_fst]
    exact blockStep_inv1 hw h0 h1 ho.1
  | backtrack n h2 hn =>
    obtain ⟨hmin, hsave, hax, hwts⟩ := unwindAux_fields (s.trail.length - n) s
    constructor
    · exact (show (unwindTo n s).m_min_cost = s.m_min_cost from hmin) ▸ h1.minNonneg
    · rw [show (unwindTo n s).m_cost_save = s.m_cost_save from hsave,
          show (unwindTo n s).m_min_cost = s.m_min_cost from hmin]
      exact h1.saveSum

theorem initState_inv0 (w : List Rat) : Inv0 w (initState w) := by
  rw [initState_eq]
  exact ⟨rfl, TrailRep.nil, List.nodup_nil, by simp, List.nodup_nil, by simp⟩

theorem initState_inv1 {w : List Rat} (hw : ∀ x ∈ w, 0 ≤ x) :
    Inv1 w (initState w) := by
  rw [initState_eq]
  exact ⟨List.sum_nonneg hw, Or.inl ⟨rfl, rfl⟩⟩

theorem reachable_inv0 {w : List Rat} {s : WState} (h : Reachable w s) :
    Inv0 w s := by
  induction h with
  | init => exact initState_inv0 w
  | step _ hs ih => exact step_inv0 ih hs

theorem reachable_inv1 {w : List Rat} {s : WState} (hw : ∀ x ∈ w, 0 ≤ x)
    (h : Reachable w s) : Inv1 w s := by
  induction h with
  | init => exact initState_inv1 hw
  | step _ hs ih => exact step_inv1 hw (reachable_inv0 (by assumption)) ih hs

/-- No single host-search event ever increases `m_min_cost`. -/
theorem step_min_le {w : List Rat} {s t : WState} (hw : ∀ x ∈ w, 0 ≤ x)
    (h0 : Inv0 w s) (hs : Step s t) : t.m_min_cost ≤ s.m_min_cost := by
  cases hs with
  | assignFalse v o => rw [assignEh_false]
  | assignTrue v o hv hnd ho =>
    rw [assignEh_true]
    obtain ⟨hc, hcs, hwts, hmin, hsave, hax, htr⟩ := ledgerPush_fields s v
    by_cases hb : (ledgerPush s v).m_min_cost < (ledgerPush s v).m_cost
    · rw [if_pos hb]
      have h0' : Inv0 w (ledgerPush s v) := ledgerPush_inv0 h0 (h0.weq ▸ hv) hnd
      have := blockStep_min_eq hw h0'.weq (inv0_cost h0') (hcs ▸ ho.1)
      rw [this, hmin]
      exact min_le_left _ _
    · rw [if_neg hb, hmin]
  | finalCheck o ho =>
    rw [finalCheckEh_fst, blockStep_min_eq hw h0.weq (inv0_cost h0) ho.1]
    exact min_le_left _ _
  | backtrack n h2 hn =>
    rw [show (unwindTo n s).m_min_cost = s.m_min_cost from
          (unwindAux_fields (s.trail.length - n) s).1]

theorem reachable_steps {w : List Rat} {s t : WState}
    (h : Reachable w s) (hs : Steps s t) : Reachable w t := by
  induction hs with
  | refl => exact h
  | tail _ hstep ih => exact Reachable.step ih hstep

/-- Across any sequence of host-search events within one search,
`m_min_cost` never increases. -/
theorem steps_min_le {w : List Rat} {s t : WState} (hw : ∀ x ∈ w, 0 ≤ x)
    (h : Reachable w s) (hs : Steps s t) : t.m_min_cost ≤ s.m_min_cost := by
  induction hs with
  | refl => exact le_refl _
  | tail hst hstep ih =>
    exact le_trans
      (step_min_le hw (reachable_inv0 (reachable_steps h hst)) hstep) ih

/-- The merge walk of `get_assignment` emits exactly the ids in the scanned
range that do not occur in the (sorted) saved set. -/
theorem gaLoop_eq (fuel : Nat) : ∀ (i : Nat) (save : List Nat),
    save.Sorted (· < ·) → (∀ k ∈ save, i ≤ k) →
    gaLoop save i fuel = (List.range' i fuel).filter (fun m => decide (m ∉ save)) := by
  induction fuel with
  | zero => intro i save _ _; simp [gaLoop]
  | succ fuel ih =>
    intro i save hsort hge
    rw [List.range'_succ]
    cases save with
    | nil =>
      have h1 : gaLoop [] i (fuel + 1) = i :: gaLoop [] (i + 1) fuel := rfl
      rw [h1, ih (i + 1) [] hsort (by simp)]
      simp
    | cons k rest =>
      by_cases hk : k = i
      · subst hk
        have h1 : gaLoop (k :: rest) k (fuel + 1) = gaLoop rest (k + 1) fuel := by
          simp [gaLoop]
        have hrest : rest.Sorted (· < ·) := hsort.of_cons
        have hgt : ∀ m ∈ rest, k < m := fun m hm => List.rel_of_sorted_cons hsort m hm
        rw [h1, ih (k + 1) rest hrest (fun m hm => hgt m hm)]
        have hpk : decide (k ∉ k :: rest) = false := by simp
        rw [List.filter_cons, hpk]
        simp only [Bool.false_eq_true, if_false]
        apply List.filter_congr
        intro m hm
        have him : k + 1 ≤ m := (List.mem_range'_1.1 hm).1
        simp only [decide_eq_decide, List.mem_cons, not_or]
        constructor
        · intro h
          exact ⟨by omega, h⟩
        · intro h
          exact h.2
      · have hik : i < k := lt_of_le_of_ne (hge k (by simp)) (fun h => hk h.symm)
        have h1 : gaLoop (k :: rest) i (fuel + 1) = i :: gaLoop (k :: rest) (i + 1) fuel := by
          simp [gaLoop, hk]
        have hge' : ∀ m ∈ k :: rest, i + 1 ≤ m := by
          intro m hm
          rcases List.mem_cons.1 hm with rfl | hm
          · omega
          · have := List.rel_of_sorted_cons hsort m hm
            omega
        rw [h1, ih (i + 1) (k :: rest) hsort hge']
        have hpi : decide (i ∉ k :: rest) = true := by
          simp only [List.mem_cons, not_or, decide_eq_true_eq]
          refine ⟨fun h => absurd h (by omega), fun hm => ?_⟩
          have := List.rel_of_sorted_cons hsort i hm
          omega
        rw [List.filter_cons, hpi]
        simp

/-- `get_assignment` computes the set complement of the saved violation set
over the registered sequence, in ascending id order, provided the saved set
has no duplicate ids. -/
theorem getAssignment_eq (fmls save : List Nat) (hnd : save.Nodup) :
    getAssignment fmls save =
      ((List.range fmls.length).filter (fun m => decide (m ∉ save))).map
        (fun i => fmls.getD i 0) := by
  unfold getAssignment
  have hperm : (save.insertionSort (· ≤ ·)).Perm save := List.perm_insertionSort _ _
  have hsorted : (save.insertionSort (· ≤ ·)).Sorted (· ≤ ·) :=
    List.sorted_insertionSort _ _
  have hnd' : (save.insertionSort (· ≤ ·)).Nodup := hperm.nodup_iff.2 hnd
  have hlt : (save.insertionSort (· ≤ ·)).Sorted (· < ·) := hsorted.lt_of_le hnd'
  rw [gaLoop_eq fmls.length 0 _ hlt (fun k _ => Nat.zero_le k)]
  rw [← List.range_eq_range']
  congr 1
  apply List.filter_congr
  intro m _
  simp only [decide_eq_decide]
  exact not_congr hperm.mem_iff

/-- With pairwise distinct weights on a duplicate-free snapshot, the sorted
order `std::sort` may produce is unique, so `block()` is deterministic. -/
theorem validOrder_unique {w : List Rat} {base o₁ o₂ : List Nat}
    (hnd : base.Nodup)
    (hinj : ∀ u ∈ base, ∀ v ∈ base, wgtL w u = wgtL w v → u = v)
    (h₁ : ValidOrder w base o₁) (h₂ : ValidOrder w base o₂) : o₁ = o₂ := by
  have hstrict : ∀ {o : List Nat}, ValidOrder w base o →
      o.Pairwise (fun u v => wgtL w v < wgtL w u) := by
    intro o ho
    have hndo : o.Nodup := ho.1.nodup_iff.2 hnd
    have hmem : ∀ x ∈ o, x ∈ base := fun x hx => ho.1.mem_iff.1 hx
    have hpw := List.Pairwise.and ho.2 hndo
    refine List.Pairwise.imp_of_mem ?_ hpw
    intro a b ha hb hab
    rcases hab with ⟨hle, hne⟩
    rcases lt_or_eq_of_le hle with hlt | heq
    · exact hlt
    · exact absurd (hinj b (hmem b hb) a (hmem a ha) heq) (fun h => hne h.symm)
  haveI : IsAntisymm Nat (fun u v => wgtL w v < wgtL w u) :=
    ⟨fun a b h1 h2 => absurd h1 (lt_asymm h2)⟩
  exact List.eq_of_perm_of_sorted (h₁.1.trans h₂.1.symm) (hstrict h₁) (hstrict h₂)

theorem findA_append_some {l : List (Nat × Nat)} {x bv : Nat}
    (h : findA l x = some bv) (l2 : List (Nat × Nat)) :
    findA (l ++ l2) x = some bv := by
  induction l with
  | nil => simp [findA] at h
  | cons p rest ih =>
    obtain ⟨k, v⟩ := p
    by_cases hk : k = x
    · rw [findA, if_pos hk] at h
      rw [List.cons_append, findA, if_pos hk]
      exact h
    · rw [findA, if_neg hk] at h
      rw [List.cons_append, findA, if_neg hk]
      exact ih h

/-- Each loop iteration of `init_search_eh` allocates exactly one fresh
theory variable (`theory::mk_var` is called unconditionally). -/
theorem stepBind_ntv (thid : Nat) (st : BindState) (a : Nat) :
    (stepBind thid st a).numTheoryVars = st.numTheoryVars + 1 := by
  unfold stepBind
  by_cases h : a ∈ st.eInternalized <;> simp only [h, if_true, if_false, ite_true, ite_false] <;>
    rcases hf : findA st.boolVarOf a with _ | bv <;> simp [hf]

theorem stepBind_eInt_mono (thid : Nat) (st : BindState) (a x : Nat)
    (h : x ∈ st.eInternalized) : x ∈ (stepBind thid st a).eInternalized := by
  unfold stepBind
  by_cases ha : a ∈ st.eInternalized <;> simp only [ha, if_true, if_false, ite_true, ite_false] <;>
    rcases hf : findA st.boolVarOf a with _ | bv <;> simp [hf, h]

theorem stepBind_bvo_mono (thid : Nat) (st : BindState) (a x bv : Nat)
    (h : findA st.boolVarOf x = some bv) :
    findA (stepBind thid st a).boolVarOf x = some bv := by
  unfold stepBind
  by_cases ha : a ∈ st.eInternalized <;> simp only [ha, if_true, if_false, ite_true, ite_false] <;>
    rcases hf : findA st.boolVarOf a with _ | bv' <;>
    simp only [hf] <;> first
      | exact h
      | exact findA_append_some h _

theorem findA_append_none {l : List (Nat × Nat)} {x : Nat}
    (h : findA l x = none) (bv : Nat) :
    findA (l ++ [(x, bv)]) x = some bv := by
  induction l with
  | nil => simp [findA]
  | cons p rest ih =>
    obtain ⟨k, v⟩ := p
    by_cases hk : k = x
    · rw [findA, if_pos hk] at h
      exact absurd h (by simp)
    · rw [findA, if_neg hk] at h
      rw [List.cons_append, findA, if_neg hk]
      exact ih h

theorem stepBind_establishes (thid : Nat) (st : BindState) (a : Nat) :
    a ∈ (stepBind thid st a).eInternalized ∧
    ((findA (stepBind thid st a).boolVarOf a).isSome = true) := by
  unfold stepBind
  by_cases ha : a ∈ st.eInternalized <;> simp only [ha, if_true, if_false, ite_true, ite_false] <;>
    rcases hf : findA st.boolVarOf a with _ | bv <;> simp only [hf]
  · exact ⟨by simpa using ha, by simp [findA_append_none hf]⟩
  · exact ⟨by simpa using ha, by simp [hf]⟩
  · exact ⟨by simp, by simp [findA_append_none hf]⟩
  · exact ⟨by simp, by simp [hf]⟩

/-- When the constraint is already internalized with a boolean variable,
a further `init_search_eh` pass leaves the internalization state alone. -/
theorem stepBind_bound (thid : Nat) (st : BindState) (a : Nat)
    (h1 : a ∈ st.eInternalized) (h2 : (findA st.boolVarOf a).isSome = true) :
    (stepBind thid st a).eInternalized = st.eInternalized ∧
    (stepBind thid st a).boolVarOf = st.boolVarOf ∧
    (stepBind thid st a).nextBoolVar = st.nextBoolVar := by
  unfold stepBind
  rcases hf : findA st.boolVarOf a with _ | bv
  · rw [hf] at h2
    simp at h2
  · simp [h1, hf]

theorem foldBind_ntv (thid : Nat) (vars : List Nat) (st : BindState) :
    (initSearchEh thid vars st).numTheoryVars = st.numTheoryVars + vars.length := by
  induction vars generalizing st with
  | nil => simp [initSearchEh]
  | cons a rest ih =>
    unfold initSearchEh at ih ⊢
    rw [List.foldl_cons, ih, stepBind_ntv]
    simp only [List.length_cons]
    omega

theorem foldBind_eInt_mono (thid : Nat) (vars : List Nat) (st : BindState) (x : Nat)
    (h : x ∈ st.eInternalized) : x ∈ (initSearchEh thid vars st).eInternalized := by
  induction vars generalizing st with
  | nil => exact h
  | cons a rest ih =>
    unfold initSearchEh at ih ⊢
    rw [List.foldl_cons]
    exact ih _ (stepBind_eInt_mono thid st a x h)

theorem foldBind_bvo_mono (thid : Nat) (vars : List Nat) (st : BindState) (x bv : Nat)
    (h : findA st.boolVarOf x = some bv) :
    findA (initSearchEh thid vars st).boolVarOf x = some bv := by
  induction vars generalizing st with
  | nil => exact h
  | cons a rest ih =>
    unfold initSearchEh at ih ⊢
    rw [List.foldl_cons]
    exact ih _ (stepBind_bvo_mono thid st a x bv h)

/-- After one `init_search_eh` pass, every registered app is internalized and
has a boolean variable. -/
theorem foldBind_establishes (thid : Nat) (vars : List Nat) (st : BindState) :
    ∀ a ∈ vars, a ∈ (initSearchEh thid vars st).eInternalized ∧
      ((findA (initSearchEh thid vars st).boolVarOf a).isSome = true) := by
  induction vars generalizing st with
  | nil => simp
  | cons b rest ih =>
    intro a ha
    have hfold : initSearchEh thid (b :: rest) st = initSearchEh thid rest (stepBind thid st b) := by
      unfold initSearchEh
      rw [List.foldl_cons]
    rw [hfold]
    rcases List.mem_cons.1 ha with rfl | ha
    · obtain ⟨h1, h2⟩ := stepBind_establishes thid st a
      refine ⟨foldBind_eInt_mono thid rest _ a h1, ?_⟩
      rcases hf : findA (stepBind thid st a).boolVarOf a with _ | bv
      · rw [hf] at h2
        simp at h2
      · rw [foldBind_bvo_mono thid rest _ a bv hf]
        rfl
    · exact ih (stepBind thid st b) a ha

/-- A pass over constraints that are all already internalized and bound to
boolean variables leaves the internalization state unchanged. -/
theorem foldBind_bound (thid : Nat) (vars : List Nat) (st : BindState)
    (h : ∀ a ∈ vars, a ∈ st.eInternalized ∧ ((findA st.boolVarOf a).isSome = true)) :
    (initSearchEh thid vars st).eInternalized = st.eInternalized ∧
    (initSearchEh thid vars st).boolVarOf = st.boolVarOf ∧
    (initSearchEh thid vars st).nextBoolVar = st.nextBoolVar := by
  induction vars generalizing st with
  | nil => exact ⟨rfl, rfl, rfl⟩
  | cons a rest ih =>
    obtain ⟨h1, h2⟩ := h a (by simp)
    obtain ⟨he, hb, hn⟩ := stepBind_bound thid st a h1 h2
    unfold initSearchEh at ih ⊢
    rw [List.foldl_cons]
    have h' : ∀ x ∈ rest, x ∈ (stepBind thid st a).eInternalized ∧
        ((findA (stepBind thid st a).boolVarOf x).isSome = true) := by
      intro x hx
      obtain ⟨hx1, hx2⟩ := h x (List.mem_cons_of_mem a hx)
      exact ⟨he ▸ hx1, hb ▸ hx2⟩
    obtain ⟨ge, gb, gn⟩ := ih (stepBind thid st a) h'
    exact ⟨ge.trans he, gb.trans hb, gn.trans hn⟩

/-- C3: after any sequence of `assign_eh` notifications interleaved with
backtracking through the host trail to any earlier mark, `m_cost` equals the
exact sum of the weights of the ids recorded in `m_costs`; the pairing of
every ledger mutation with inverse trail records (`TrailRep`) is what makes
the equation stable under unwinding. -/
theorem C3_ledger_consistency {w : List Rat} {s : WState}
    (hr : Reachable w s) : s.m_cost = costW w s.m_costs :=
  inv0_cost (reachable_inv0 hr)

/-- C4: within one search, `m_min_cost` never increases across any sequence
of host events (in particular across `block()` invocations); a single
`block()` leaves it unchanged or lowers it, and when `m_cost < m_min_cost`
it is set to the accumulated prefix weight while `m_cost_save` is set to the
snapshot of `m_costs`. -/
theorem C4_bound_monotone {w : List Rat} {s t : WState} {o : List Nat}
    (hw : ∀ x ∈ w, 0 ≤ x) (hr : Reachable w s) (hs : Steps s t)
    (ho : ValidOrder w s.m_costs o) :
    t.m_min_cost ≤ s.m_min_cost ∧
    (blockStep s o).1.m_min_cost ≤ s.m_min_cost ∧
    (s.m_cost < s.m_min_cost →
      (blockStep s o).1.m_min_cost = costW w (cutFrom w s.m_min_cost 0 o) ∧
      (blockStep s o).1.m_cost_save = s.m_costs) := by
  have h0 := reachable_inv0 hr
  have hmin := blockStep_min_eq hw h0.weq (inv0_cost h0) ho.1
  refine ⟨steps_min_le hw hr hs, ?_, ?_⟩
  · rw [hmin]
    exact min_le_left _ _
  · intro hlt
    obtain ⟨ha, hb⟩ := (blockStep_update s o).1 hlt
    constructor
    · rw [ha, h0.weq]
    · exact hb

/-- C1 (amended): every clause `block()` submits is logged before the bound
update, so in the improving case (`m_cost < m_min_cost`) its weight sum is
`m_cost`, which is strictly below the bound at the moment of submission; what
does hold is that the weight sum of the emitted clause is at least the value
`m_min_cost` has when `block()` returns, which is `min` of the entry bound
and the running cost. -/
theorem C1_cut_sound {w : List Rat} {s : WState} {o : List Nat}
    (hw : ∀ x ∈ w, 0 ≤ x) (hr : Reachable w s) (ho : ValidOrder w s.m_costs o) :
    (blockStep s o).1.m_axioms = s.m_axioms ++ [cutFrom w s.m_min_cost 0 o] ∧
    (blockStep s o).1.m_min_cost ≤ costW w (cutFrom w s.m_min_cost 0 o) ∧
    (blockStep s o).1.m_min_cost = min s.m_min_cost s.m_cost := by
  have h0 := reachable_inv0 hr
  refine ⟨?_, ?_, ?_⟩
  · have := (blockStep_fields s o).2.2.2.2
    rw [this, h0.weq]
  · exact blockStep_cut_ge hw h0.weq (inv0_cost h0) ho.1
  · exact blockStep_min_eq hw h0.weq (inv0_cost h0) ho.1

/-- C2 (amended): `block()` sorts the snapshot of `m_costs` into some weakly
descending weight order (`std::sort` does not fix the tie order), emits the
negations of the greedy prefix of that order accumulated until the sum
reaches `m_min_cost` or the order is exhausted, with every proper prefix
still below the bound; when the weights of the asserted ids are pairwise
distinct the order — and hence the emitted clause — is uniquely determined. -/
theorem C2_block_greedy {w : List Rat} {s : WState} {o : List Nat}
    (hr : Reachable w s) (ho : ValidOrder w s.m_costs o) :
    (∃ k, (blockStep s o).1.m_axioms = s.m_axioms ++ [o.take k] ∧
       (s.m_min_cost ≤ costW w (o.take k) ∨ o.take k = o) ∧
       (∀ j < k, costW w (o.take j) < s.m_min_cost)) ∧
    ((∀ u ∈ s.m_costs, ∀ v ∈ s.m_costs, wgtL w u = wgtL w v → u = v) →
      ∀ o₂, ValidOrder w s.m_costs o₂ → blockStep s o₂ = blockStep s o) := by
  have h0 := reachable_inv0 hr
  constructor
  · refine ⟨(cutFrom w s.m_min_cost 0 o).length, ?_, ?_, ?_⟩
    · have := (blockStep_fields s o).2.2.2.2
      rw [this, h0.weq, ← cutFrom_take]
    · rw [← cutFrom_take]
      have := cutFrom_exit w s.m_min_cost 0 o
      simpa using this
    · intro j hj
      have htk : (cutFrom w s.m_min_cost 0 o).take j = o.take j := by
        conv_lhs => rw [cutFrom_take w s.m_min_cost 0 o]
        rw [List.take_take, min_eq_left (le_of_lt hj)]
      rw [← htk]
      have := cutFrom_take_lt w s.m_min_cost 0 o j hj
      simpa using this
  · intro hinj o₂ ho₂
    rw [validOrder_unique h0.nodup hinj ho₂ ho]

/-- C5: when a `block()` call emits nothing to block (the call after which
`final_check_eh` reports done), `get_assignment` returns exactly the
registered formulas whose id is absent from `m_cost_save`, in ascending id
order, and the weight sum of `m_cost_save` equals `m_min_cost`. -/
theorem C5_extraction {w : List Rat} {s : WState} {o : List Nat} (fmls : List Nat)
    (hw : ∀ x ∈ w, 0 ≤ x) (hr : Reachable w s) (ho : ValidOrder w s.m_costs o)
    (hdone : (blockStep s o).2 = false) (hlen : fmls.length = w.length) :
    getAssignment fmls (blockStep s o).1.m_cost_save =
      ((List.range fmls.length).filter
        (fun m => decide (m ∉ (blockStep s o).1.m_cost_save))).map
        (fun i => fmls.getD i 0) ∧
    costW w (blockStep s o).1.m_cost_save = (blockStep s o).1.m_min_cost := by
  have h0 := reachable_inv0 hr
  have h1 := reachable_inv1 hw hr
  constructor
  · exact getAssignment_eq fmls _ (blockStep_inv0 h0 o).saveNodup
  · have hcut : cutFrom s.m_weights s.m_min_cost 0 o = [] := by
      by_contra hne
      rw [(blockStep_ret s o).2 hne] at hdone
      simp at hdone
    have hco : o = [] ∨ s.m_min_cost ≤ 0 := by
      rw [h0.weq] at hcut
      exact (cutFrom_eq_nil_iff w s.m_min_cost o).1 hcut
    by_cases hlt : s.m_cost < s.m_min_cost
    · obtain ⟨hm, hsv⟩ := (blockStep_update s o).1 hlt
      rw [hm, hsv, hcut, costW_nil]
      rcases hco with ho' | hmin0
      · have hnil : s.m_costs = [] := by
          subst ho'
          exact (List.perm_nil.1 ho.1.symm)
        rw [hnil, costW_nil]
      · have : 0 ≤ s.m_cost := by
          rw [inv0_cost h0]
          exact costW_nonneg hw _
        linarith
    · obtain ⟨hm, hsv⟩ := (blockStep_update s o).2 hlt
      rw [hm, hsv]
      have hmin0 : s.m_min_cost = 0 := by
        rcases hco with ho' | hle
        · have hnil : s.m_costs = [] := by
            subst ho'
            exact (List.perm_nil.1 ho.1.symm)
          have hcost0 : s.m_cost = 0 := by
            rw [inv0_cost h0, hnil, costW_nil]
          push_neg at hlt
          rw [hcost0] at hlt
          exact le_antisymm hlt h1.minNonneg
        · exact le_antisymm hle h1.minNonneg
      rcases h1.saveSum with ⟨hse, -⟩ | hss
      · rw [hse, costW_nil, hmin0]
      · exact hss

/-- C7 (amended): `block()` emits an empty clause exactly when the asserted
set is empty or `m_min_cost` is nonpositive (not only in the latter case);
it returns true iff the emitted clause is non-empty, and on an empty clause
`final_check_eh` reports an ordinary `FC_DONE` outcome. -/
theorem C7_empty_clause {s : WState} {o : List Nat}
    (ho : ValidOrder s.m_weights s.m_costs o) :
    ∃ c, (blockStep s o).1.m_axioms = s.m_axioms ++ [c] ∧
      (c = [] ↔ s.m_costs = [] ∨ s.m_min_cost ≤ 0) ∧
      ((blockStep s o).2 = true ↔ c ≠ []) ∧
      ((finalCheckEh s o).2 = FinalCheckStatus.FC_DONE ↔ c = []) := by
  refine ⟨cutFrom s.m_weights s.m_min_cost 0 o, (blockStep_fields s o).2.2.2.2, ?_, ?_, ?_⟩
  · rw [cutFrom_eq_nil_iff]
    constructor
    · rintro (ho' | hb)
      · left
        subst ho'
        exact List.perm_nil.1 ho.1.symm
      · right
        exact hb
    · rintro (hc | hb)
      · left
        rw [hc] at ho
        exact List.perm_nil.1 ho.1
      · right
        exact hb
  · exact blockStep_ret s o
  · unfold finalCheckEh
    rcases hb : (blockStep s o).2 with _ | _
    · simp only [hb, Bool.false_eq_true, if_false]
      have := (blockStep_ret s o)
      rw [hb] at this
      constructor
      · intro _
        by_contra hne
        exact Bool.false_ne_true (this.2 hne)
      · intro _
        trivial
    · simp only [hb, if_true]
      have hne := (blockStep_ret s o).1 hb
      constructor
      · intro h
        exact absurd h (by simp)
      · intro h
        exact absurd h hne

/-- C8: `assign_eh` with a false truth value leaves the whole state
untouched; with a true truth value it adds the variable weight to `m_cost`,
appends the variable to `m_costs`, and invokes `block()` — observable as
exactly one extra submitted clause — precisely when the updated running cost
strictly exceeds `m_min_cost`; otherwise it only performs the ledger push. -/
theorem C8_assign_eh (s : WState) (v : Nat) (o : List Nat) :
    assignEh s v false o = s ∧
    (assignEh s v true o).m_cost = s.m_cost + wgtL s.m_weights v ∧
    (assignEh s v true o).m_costs = s.m_costs ++ [v] ∧
    ((assignEh s v true o).m_axioms.length = s.m_axioms.length + 1 ↔
      s.m_min_cost < s.m_cost + wgtL s.m_weights v) ∧
    (¬ s.m_min_cost < s.m_cost + wgtL s.m_weights v →
      assignEh s v true o = ledgerPush s v) := by
  obtain ⟨hc, hcs, hwt, hmin, hsv, hax, htr⟩ := ledgerPush_fields s v
  have hcond : ((ledgerPush s v).m_min_cost < (ledgerPush s v).m_cost) ↔
      s.m_min_cost < s.m_cost + wgtL s.m_weights v := by
    rw [hc, hmin]
  refine ⟨rfl, ?_, ?_, ?_, ?_⟩
  · rw [assignEh_true]
    by_cases hb : (ledgerPush s v).m_min_cost < (ledgerPush s v).m_cost
    · rw [if_pos hb, (blockStep_fields _ o).1, hc]
    · rw [if_neg hb, hc]
  · rw [assignEh_true]
    by_cases hb : (ledgerPush s v).m_min_cost < (ledgerPush s v).m_cost
    · rw [if_pos hb, (blockStep_fields _ o).2.1, hcs]
    · rw [if_neg hb, hcs]
  · rw [assignEh_true]
    by_cases hb : (ledgerPush s v).m_min_cost < (ledgerPush s v).m_cost
    · rw [if_pos hb, (blockStep_fields _ o).2.2.2.2, hax]
      constructor
      · intro _
        exact hcond.1 hb
      · intro _
        simp
    · rw [if_neg hb, hax]
      constructor
      · intro h
        exact absurd h (by omega)
      · intro h
        exact absurd (hcond.2 h) hb
  · intro h
    rw [assignEh_true, if_neg (fun hb => h (hcond.1 hb))]

/-- A session state with one registered soft constraint (formula id 7,
weight 3, relaxation app 0) whose binding maps were filled by
`init_search_eh` (boolean variable 5). -/
def c6Session : CState :=
  { m_vars := [0], m_fmls := [7], m_weights := [3], m_costs := [], m_cost_save := [],
    m_cost := 0, m_min_cost := 3, m_bool2var := [(5, 0)], m_var2bool := [(0, 5)] }

/-- C6: `reset_eh` does not clear all module state.  It resets `m_vars`,
`m_weights`, `m_costs`, `m_cost`, `m_min_cost` and `m_cost_save`, but leaves
the registered formula array `m_fmls` and the two binding maps populated —
even though `m_fmls` is pushed in lockstep with `m_vars`/`m_weights` by
`assert_weighted`, so the parallel arrays are left inconsistent. -/
theorem C6_reset_incomplete :
    (resetEh c6Session).m_vars = [] ∧
    (resetEh c6Session).m_weights = [] ∧
    (resetEh c6Session).m_costs = [] ∧
    (resetEh c6Session).m_cost = 0 ∧
    (resetEh c6Session).m_min_cost = 0 ∧
    (resetEh c6Session).m_cost_save = [] ∧
    (resetEh c6Session).m_fmls = [7] ∧
    (resetEh c6Session).m_bool2var = [(5, 0)] ∧
    (resetEh c6Session).m_var2bool = [(0, 5)] := by
  refine ⟨rfl, rfl, rfl, rfl, rfl, rfl, rfl, rfl, rfl⟩

/-- C9 (counterexample): `init_search_eh` has no already-bound skip; running
it twice over one registered constraint allocates a second theory variable
and attaches it again, so the binding state differs from a single run. -/
theorem C9_counterexample :
    (initSearchEh 0 [0] (initSearchEh 0 [0] emptyBindState)).numTheoryVars = 2 ∧
    (initSearchEh 0 [0] emptyBindState).numTheoryVars = 1 ∧
    (initSearchEh 0 [0] (initSearchEh 0 [0] emptyBindState)).attached = [(0, 0), (0, 1)] ∧
    (initSearchEh 0 [0] emptyBindState).attached = [(0, 0)] ∧
    initSearchEh 0 [0] (initSearchEh 0 [0] emptyBindState) ≠
      initSearchEh 0 [0] emptyBindState := by
  refine ⟨by decide, by decide, by decide, by decide, by decide⟩

/-- C9 (amended): each `init_search_eh` run processes every registered
constraint unconditionally.  Only the host-context internalization state is
idempotent (existing enodes and boolean variables are reused, so
`eInternalized`, `boolVarOf` and the fresh-boolean-variable counter are
unchanged on a second run); the theory-variable binding state is not:
every run allocates one fresh theory variable per registered constraint. -/
theorem C9_rebind (thid : Nat) (vars : List Nat) (st : BindState) :
    (initSearchEh thid vars (initSearchEh thid vars st)).eInternalized =
      (initSearchEh thid vars st).eInternalized ∧
    (initSearchEh thid vars (initSearchEh thid vars st)).boolVarOf =
      (initSearchEh thid vars st).boolVarOf ∧
    (initSearchEh thid vars (initSearchEh thid vars st)).nextBoolVar =
      (initSearchEh thid vars st).nextBoolVar ∧
    (initSearchEh thid vars st).numTheoryVars = st.numTheoryVars + vars.length ∧
    (initSearchEh thid vars (initSearchEh thid vars st)).numTheoryVars =
      st.numTheoryVars + vars.length + vars.length := by
  obtain ⟨he, hb, hn⟩ := foldBind_bound thid vars (initSearchEh thid vars st)
    (foldBind_establishes thid vars st)
  refine ⟨he, hb, hn, foldBind_ntv thid vars st, ?_⟩
  rw [foldBind_ntv thid vars (initSearchEh thid vars st), foldBind_ntv thid vars st]

/-- C10: the entry point overwrites its `soft_constraints` argument with the
extracted satisfied subset, coerces an `l_false` search result to `l_true`
whenever that subset is non-empty, and therefore returns `l_false` to the
caller exactly when the search said `l_false` and the extracted subset is
empty. -/
theorem C10_entry (fmls : List Nat) (st : WState) (r : lbool) :
    (weightedMaxsatPost fmls r st).1 = getAssignment fmls st.m_cost_save ∧
    ((weightedMaxsatPost fmls r st).2 = lbool.l_false ↔
      (r = lbool.l_false ∧ getAssignment fmls st.m_cost_save = [])) ∧
    (r = lbool.l_false → getAssignment fmls st.m_cost_save ≠ [] →
      (weightedMaxsatPost fmls r st).2 = lbool.l_true) := by
  refine ⟨rfl, ?_, ?_⟩
  · show (if getAssignment fmls st.m_cost_save ≠ [] ∧ r = lbool.l_false
        then lbool.l_true else r) = lbool.l_false ↔
      (r = lbool.l_false ∧ getAssignment fmls st.m_cost_save = [])
    by_cases hg : getAssignment fmls st.m_cost_save = []
    · rw [if_neg (fun h => h.1 hg)]
      exact ⟨fun h => ⟨h, hg⟩, fun h => h.1⟩
    · by_cases hr : r = lbool.l_false
      · rw [if_pos ⟨hg, hr⟩]
        exact ⟨fun h => lbool.noConfusion h, fun h => absurd h.2 hg⟩
      · rw [if_neg (fun h => hr h.2)]
        exact ⟨fun h => absurd h hr, fun h => absurd h.1 hr⟩
  · intro h1 h2
    show (if getAssignment fmls st.m_cost_save ≠ [] ∧ r = lbool.l_false
        then lbool.l_true else r) = lbool.l_true
    rw [if_pos ⟨h2, h1⟩]

/-- State reached with weights `1, 1` after asserting id 0 (cost 1, bound
still the relax-everything total 2): the next `block()` call is the
improving case. -/
def cexSt1 : WState :=
  { m_weights := [1, 1], m_costs := [0], m_cost_save := [], m_cost := 1,
    m_min_cost := 2, m_axioms := [],
    trail := [TrailOp.popCost, TrailOp.saveCost 0] }

/-- C1 (counterexample): at `cexSt1`, `block()` submits the clause negating
id 0 whose weight sum is 1, strictly below `m_min_cost = 2` at the moment of
submission — the bound is only lowered to 1 afterwards.  So the emitted
clause's weight sum is not `≥ best_bound` at emission time. -/
theorem C1_counterexample :
    ValidOrder cexSt1.m_weights cexSt1.m_costs [0] ∧
    (blockStep cexSt1 [0]).1.m_axioms = cexSt1.m_axioms ++ [[0]] ∧
    costW cexSt1.m_weights [0] < cexSt1.m_min_cost := by
  refine ⟨⟨List.Perm.refl _, by simp⟩, ?_, ?_⟩
  · rw [(blockStep_fields cexSt1 [0]).2.2.2.2]
    have hcut : cutFrom cexSt1.m_weights cexSt1.m_min_cost 0 [0] = [0] := by
      rw [cutFrom]
      rw [if_pos (by simp [cexSt1]), cutFrom]
    rw [hcut]
  · show costW [1, 1] [0] < (2 : Rat)
    simp [costW, wgtL]

/-- State with tied weights `1, 1`, both ids asserted, and bound already
lowered to 1 (cost 2 exceeds it): the next `block()` is the pruning case and
the cut stops after one element. -/
def cexSt2 : WState :=
  { m_weights := [1, 1], m_costs := [0, 1], m_cost_save := [0], m_cost := 2,
    m_min_cost := 1, m_axioms := [[0]],
    trail := [TrailOp.popCost, TrailOp.saveCost 1, TrailOp.popCost, TrailOp.saveCost 0] }

/-- C2 (counterexample): with tied weights, both `[0, 1]` and `[1, 0]` are
outcomes `std::sort` may produce for the snapshot `[0, 1]` (the comparator
only compares weights and `std::sort` is not stable), and they yield
different emitted clauses (`¬l₀` versus `¬l₁`).  The claimed
stable-sort/registration-order tie-break — and with it clause determinism —
is not guaranteed by the code. -/
theorem C2_counterexample :
    ValidOrder cexSt2.m_weights cexSt2.m_costs [0, 1] ∧
    ValidOrder cexSt2.m_weights cexSt2.m_costs [1, 0] ∧
    (blockStep cexSt2 [0, 1]).1.m_axioms = cexSt2.m_axioms ++ [[0]] ∧
    (blockStep cexSt2 [1, 0]).1.m_axioms = cexSt2.m_axioms ++ [[1]] ∧
    ([0] : List Nat) ≠ [1] := by
  have hw0 : wgtL cexSt2.m_weights 0 = 1 := by simp [cexSt2, wgtL]
  have hw1 : wgtL cexSt2.m_weights 1 = 1 := by simp [cexSt2, wgtL]
  refine ⟨⟨List.Perm.refl _, ?_⟩, ⟨List.Perm.swap 0 1 [], ?_⟩, ?_, ?_, by decide⟩
  · simp [cexSt2, wgtL]
  · simp [cexSt2, wgtL]
  · rw [(blockStep_fields cexSt2 [0, 1]).2.2.2.2]
    have hcut : cutFrom cexSt2.m_weights cexSt2.m_min_cost 0 [0, 1] = [0] := by
      rw [cutFrom, if_pos (by simp [cexSt2]), cutFrom, if_neg (by simp [cexSt2, wgtL])]
    rw [hcut]
  · rw [(blockStep_fields cexSt2 [1, 0]).2.2.2.2]
    have hcut : cutFrom cexSt2.m_weights cexSt2.m_min_cost 0 [1, 0] = [1] := by
      rw [cutFrom, if_pos (by simp [cexSt2]), cutFrom, if_neg (by simp [cexSt2, wgtL])]
    rw [hcut]

/-- C7 (counterexample): at search start with one weight-5 constraint and
nothing asserted, `final_check_eh`'s `block()` submits an empty clause even
though `m_min_cost = 5 > 0`: an empty accumulated prefix also arises from an
empty asserted set, not only from a nonpositive bound. -/
theorem C7_counterexample :
    Reachable [5] (initState [5]) ∧
    ValidOrder (initState [5]).m_weights (initState [5]).m_costs [] ∧
    (blockStep (initState [5]) []).1.m_axioms = [[]] ∧
    (blockStep (initState [5]) []).2 = false ∧
    (0 : Rat) < (initState [5]).m_min_cost := by
  refine ⟨Reachable.init, ⟨List.Perm.nil, List.Pairwise.nil⟩, ?_, rfl, ?_⟩
  · rw [(blockStep_fields (initState [5]) []).2.2.2.2]
    rw [initState_eq]
    rfl
  · rw [initState_eq]
    simp

/-- C1 (witness): the amended soundness statement applied at the start state
for a single weight-2 constraint with the empty sort order. -/
theorem C1_cut_sound_witness :
    (∀ x ∈ ([2] : List Rat), 0 ≤ x) ∧
    ValidOrder [2] (initState [2]).m_costs [] ∧
    ((blockStep (initState [2]) []).1.m_axioms =
        (initState [2]).m_axioms ++ [cutFrom [2] (initState [2]).m_min_cost 0 []] ∧
      (blockStep (initState [2]) []).1.m_min_cost ≤
        costW [2] (cutFrom [2] (initState [2]).m_min_cost 0 []) ∧
      (blockStep (initState [2]) []).1.m_min_cost =
        min (initState [2]).m_min_cost (initState [2]).m_cost) := by
  have hw : ∀ x ∈ ([2] : List Rat), 0 ≤ x := by simp
  have ho : ValidOrder [2] (initState [2]).m_costs [] := ⟨List.Perm.nil, List.Pairwise.nil⟩
  exact ⟨hw, ho, C1_cut_sound hw Reachable.init ho⟩

/-- C2 (witness): the amended greedy-cut characterisation applied at the
start state for a single weight-2 constraint. -/
theorem C2_block_greedy_witness :
    ValidOrder [2] (initState [2]).m_costs ([] : List Nat) ∧
    ((∃ k, (blockStep (initState [2]) ([] : List Nat)).1.m_axioms =
         (initState [2]).m_axioms ++ [([] : List Nat).take k] ∧
       ((initState [2]).m_min_cost ≤ costW [2] (([] : List Nat).take k) ∨
         ([] : List Nat).take k = []) ∧
       (∀ j < k, costW [2] (([] : List Nat).take j) < (initState [2]).m_min_cost)) ∧
     ((∀ u ∈ (initState [2]).m_costs, ∀ v ∈ (initState [2]).m_costs,
         wgtL [2] u = wgtL [2] v → u = v) →
       ∀ o₂, ValidOrder [2] (initState [2]).m_costs o₂ →
         blockStep (initState [2]) o₂ = blockStep (initState [2]) ([] : List Nat))) := by
  have ho : ValidOrder [2] (initState [2]).m_costs [] := ⟨List.Perm.nil, List.Pairwise.nil⟩
  exact ⟨ho, C2_block_greedy Reachable.init ho⟩

/-- C3 (witness): the ledger equation at the state reached from one
registered weight-1 constraint after its relaxation literal is asserted
true. -/
theorem C3_ledger_consistency_witness :
    Reachable [1] (assignEh (initState [1]) 0 true [0]) ∧
    (assignEh (initState [1]) 0 true [0]).m_cost =
      costW [1] (assignEh (initState [1]) 0 true [0]).m_costs := by
  have hv : (0 : Nat) < (initState [1]).m_weights.length := by
    rw [initState_eq]
    simp
  have hnd : (0 : Nat) ∉ (initState [1]).m_costs := by
    rw [initState_eq]
    simp
  have ho : ValidOrder (initState [1]).m_weights ((initState [1]).m_costs ++ [0]) [0] := by
    rw [initState_eq]
    exact ⟨List.Perm.refl _, by simp⟩
  have hr : Reachable [1] (assignEh (initState [1]) 0 true [0]) :=
    Reachable.step Reachable.init (Step.assignTrue 0 [0] hv hnd ho)
  exact ⟨hr, C3_ledger_consistency hr⟩

/-- C4 (witness): bound monotonicity applied across a single final-check
step from the start state of a single weight-1 constraint. -/
theorem C4_bound_monotone_witness :
    (∀ x ∈ ([1] : List Rat), 0 ≤ x) ∧
    ValidOrder [1] (initState [1]).m_costs [] ∧
    ((finalCheckEh (initState [1]) []).1.m_min_cost ≤ (initState [1]).m_min_cost ∧
     (blockStep (initState [1]) []).1.m_min_cost ≤ (initState [1]).m_min_cost ∧
     ((initState [1]).m_cost < (initState [1]).m_min_cost →
       (blockStep (initState [1]) []).1.m_min_cost =
         costW [1] (cutFrom [1] (initState [1]).m_min_cost 0 []) ∧
       (blockStep (initState [1]) []).1.m_cost_save = (initState [1]).m_costs)) := by
  have hw : ∀ x ∈ ([1] : List Rat), 0 ≤ x := by simp
  have ho : ValidOrder [1] (initState [1]).m_costs [] := ⟨List.Perm.nil, List.Pairwise.nil⟩
  have hs : Steps (initState [1]) (finalCheckEh (initState [1]) []).1 :=
    Steps.tail (Steps.refl _) (Step.finalCheck [] ho)
  exact ⟨hw, ho, C4_bound_monotone hw Reachable.init hs ho⟩

/-- C5 (witness): extraction applied after the done-reporting `block()` at
the start state of a single weight-1 constraint with formula id 9. -/
theorem C5_extraction_witness :
    (∀ x ∈ ([1] : List Rat), 0 ≤ x) ∧
    ValidOrder [1] (initState [1]).m_costs [] ∧
    (blockStep (initState [1]) []).2 = false ∧
    (getAssignment [9] (blockStep (initState [1]) []).1.m_cost_save =
       ((List.range ([9] : List Nat).length).filter
         (fun m => decide (m ∉ (blockStep (initState [1]) []).1.m_cost_save))).map
         (fun i => ([9] : List Nat).getD i 0) ∧
     costW [1] (blockStep (initState [1]) []).1.m_cost_save =
       (blockStep (initState [1]) []).1.m_min_cost) := by
  have hw : ∀ x ∈ ([1] : List Rat), 0 ≤ x := by simp
  have ho : ValidOrder [1] (initState [1]).m_costs [] := ⟨List.Perm.nil, List.Pairwise.nil⟩
  exact ⟨hw, ho, rfl, C5_extraction [9] hw Reachable.init ho rfl rfl⟩

/-- C7 (witness): the amended empty-clause characterisation applied at the
start state of a single weight-3 constraint. -/
theorem C7_empty_clause_witness :
    ValidOrder (initState [3]).m_weights (initState [3]).m_costs [] ∧
    (∃ c, (blockStep (initState [3]) []).1.m_axioms = (initState [3]).m_axioms ++ [c] ∧
      (c = [] ↔ (initState [3]).m_costs = [] ∨ (initState [3]).m_min_cost ≤ 0) ∧
      ((blockStep (initState [3]) []).2 = true ↔ c ≠ []) ∧
      ((finalCheckEh (initState [3]) []).2 = FinalCheckStatus.FC_DONE ↔ c = [])) := by
  have ho : ValidOrder (initState [3]).m_weights (initState [3]).m_costs [] :=
    ⟨List.Perm.nil, List.Pairwise.nil⟩
  exact ⟨ho, C7_empty_clause ho⟩

/-- C8 (witness): the false-assignment clause of the `assign_eh`
characterisation at a concrete state. -/
theorem C8_assign_eh_witness : assignEh emptyWState 0 false [] = emptyWState :=
  (C8_assign_eh emptyWState 0 []).1

/-- C10 (witness): the overwrite clause of the entry-point characterisation
at a concrete instance. -/
theorem C10_entry_witness :
    (weightedMaxsatPost [4] lbool.l_undef emptyWState).1 =
      getAssignment [4] emptyWState.m_cost_save :=
  (C10_entry [4] emptyWState lbool.l_undef).1
